import Mathlib

/-!
Shallow embedding of the flatbread-xl table rendering engine, translated from
the Python sources: `pandasxl/layout.py` (coordinates and region layout),
`flatbreadxl/spans.py` (span detection and merge-range derivation),
`pandasxl/pattern.py` (pattern matching), `pandasxl/merge.py` (merge
application) and `pandasxl/table/writer.py` (number-format resolution).
Machine integers are modelled as `Int` (Python integers are unbounded),
list positions as `Nat`.
-/

/-- Scalar label component: a string, an integer, or a missing value
(Python `None`, recognized by `pd.isna`). -/
inductive Scalar where
  | null
  | str (s : String)
  | int (n : Int)
deriving DecidableEq, Repr

/-- A hierarchical key: the tuple of one MultiIndex entry. -/
abbrev Key := List Scalar

/-- A pandas label as seen by dynamically typed Python code: either a scalar
(flat index) or a tuple (MultiIndex entry). -/
inductive PyVal where
  | s (v : Scalar)
  | tup (vs : List Scalar)
deriving DecidableEq, Repr

/-- A pandas index: a flat `pd.Index` with its name, or a `pd.MultiIndex`
with its level count and per-level names. -/
inductive PIndex where
  | flat (labels : List Scalar) (name : Option String)
  | multi (nlevels : Nat) (keys : List Key) (names : List (Option String))
deriving DecidableEq, Repr

/-- Number of positions along the axis (`len(index)`). -/
def PIndex.length : PIndex → Nat
  | .flat labels _ => labels.length
  | .multi _ keys _ => keys.length

/-- `index.nlevels`: 1 for a flat index. -/
def PIndex.nlevels : PIndex → Nat
  | .flat _ _ => 1
  | .multi n _ _ => n

/-- `index.names` as a list (a flat index has a single name slot). -/
def PIndex.names : PIndex → List (Option String)
  | .flat _ name => [name]
  | .multi _ _ names => names

/-- The labels obtained by iterating over the index in Python
(scalars for a flat index, tuples for a MultiIndex). -/
def PIndex.labels : PIndex → List PyVal
  | .flat labels _ => labels.map PyVal.s
  | .multi _ keys _ => keys.map PyVal.tup

/-- A DataFrame as far as the layout/span/merge engine reads it:
its row index and its column index. -/
structure DataFrame where
  index : PIndex
  columns : PIndex
deriving DecidableEq, Repr

/-- `CellPosition` from `pandasxl/layout.py`: a 2D cell coordinate stored
0-based. -/
structure CellPosition where
  x : Int
  y : Int
deriving DecidableEq, Repr

/-- `CellPosition.__init__`: when `excel_based` is true the given coordinates
are 1-based and get converted to the 0-based internal form. -/
def CellPosition.init (x y : Int) (excel_based : Bool) : CellPosition :=
  if excel_based then ⟨x - 1, y - 1⟩ else ⟨x, y⟩

/-- `CellPosition.excel_x`: the 1-based column coordinate. -/
def CellPosition.excel_x (p : CellPosition) : Int := p.x + 1

/-- `CellPosition.excel_y`: the 1-based row coordinate. -/
def CellPosition.excel_y (p : CellPosition) : Int := p.y + 1

/-- `CellPosition.__add__`. -/
def CellPosition.add (p q : CellPosition) : CellPosition := ⟨p.x + q.x, p.y + q.y⟩

/-- `CellPosition.__sub__`. -/
def CellPosition.sub (p q : CellPosition) : CellPosition := ⟨p.x - q.x, p.y - q.y⟩

/-- `BaseLayout` from `pandasxl/layout.py`: a rectangle of cells with a
width, a height and a 0-based position of its top-left corner. -/
structure BaseLayout where
  width : Int
  height : Int
  position : CellPosition
deriving DecidableEq, Repr

/-- `BaseLayout.x_start`. -/
def BaseLayout.x_start (l : BaseLayout) : Int := l.position.x

/-- `BaseLayout.y_start`. -/
def BaseLayout.y_start (l : BaseLayout) : Int := l.position.y

/-- `BaseLayout.x_end`. -/
def BaseLayout.x_end (l : BaseLayout) : Int := l.x_start + l.width - 1

/-- `BaseLayout.y_end`. -/
def BaseLayout.y_end (l : BaseLayout) : Int := l.y_start + l.height - 1

/-- `BaseLayout.cell_at`: the cell at the given offsets from the layout's
start position. -/
def BaseLayout.cell_at (l : BaseLayout) (x_offset y_offset : Int) : CellPosition :=
  ⟨l.x_start + x_offset, l.y_start + y_offset⟩

/-- `AxisLayout`: a `BaseLayout` that also records whether the axis has
names. -/
structure AxisLayout extends BaseLayout where
  has_names : Bool
deriving DecidableEq, Repr

/-- `AxisLayout.cell_at`, inherited from `BaseLayout`. -/
def AxisLayout.cell_at (l : AxisLayout) (x_offset y_offset : Int) : CellPosition :=
  l.toBaseLayout.cell_at x_offset y_offset

/-- `AxisLayout.x_start`. -/
def AxisLayout.x_start (l : AxisLayout) : Int := l.toBaseLayout.x_start

/-- `AxisLayout.y_start`. -/
def AxisLayout.y_start (l : AxisLayout) : Int := l.toBaseLayout.y_start

/-- `TableLayout` from `pandasxl/layout.py`: the five regions plus the
construction parameters. -/
structure TableLayout where
  position : CellPosition
  index_width : Int
  index_height : Int
  column_width : Int
  column_height : Int
  has_index_names : Bool
  has_column_names : Bool
  columns : AxisLayout
  index : AxisLayout
  index_names : BaseLayout
  column_names : BaseLayout
  data_layout : BaseLayout
deriving DecidableEq, Repr

/-- `TableLayout.__init__` followed by `_init_layouts`: the five regions are
computed in dependency order (`_create_column_layout`, `_create_index_layout`,
`_create_index_names_layout`, `_create_column_names_layout`,
`_create_data_layout`). -/
def TableLayout.init (index_width index_height column_width column_height : Int)
    (has_index_names has_column_names : Bool) (x_offset y_offset : Int) : TableLayout :=
  let position : CellPosition := ⟨x_offset, y_offset⟩
  let columns : AxisLayout :=
    { width := column_width, height := column_height,
      position := ⟨position.x + index_width, position.y⟩,
      has_names := has_column_names }
  let additional_y_offset : Int := if has_index_names then 1 else 0
  let index : AxisLayout :=
    { width := index_width, height := index_height,
      position := ⟨position.x, position.y + column_height + additional_y_offset⟩,
      has_names := has_index_names }
  let index_names : BaseLayout :=
    { width := index.toBaseLayout.width,
      height := if has_index_names then 1 else 0,
      position := ⟨index.x_start, index.y_start - (if has_index_names then 1 else 0)⟩ }
  let column_names : BaseLayout :=
    { width := if has_column_names then 1 else 0,
      height := columns.toBaseLayout.height,
      position := ⟨columns.x_start - (if has_column_names then 1 else 0), columns.y_start⟩ }
  let data_layout : BaseLayout :=
    { width := columns.toBaseLayout.width,
      height := index.toBaseLayout.height,
      position := ⟨columns.x_start, index.y_start⟩ }
  { position := position,
    index_width := index_width, index_height := index_height,
    column_width := column_width, column_height := column_height,
    has_index_names := has_index_names, has_column_names := has_column_names,
    columns := columns, index := index,
    index_names := index_names, column_names := column_names,
    data_layout := data_layout }

/-- `TableLayout.total_width`. -/
def TableLayout.total_width (t : TableLayout) : Int :=
  t.index.toBaseLayout.width + t.data_layout.width

/-- `TableLayout.total_height`. -/
def TableLayout.total_height (t : TableLayout) : Int :=
  t.columns.toBaseLayout.height + t.index_names.height + t.index.toBaseLayout.height

/-- `TableLayout.from_df`: derive the construction parameters from a
DataFrame. -/
def TableLayout.from_df (df : DataFrame) (x_offset y_offset : Int) : TableLayout :=
  TableLayout.init df.index.nlevels df.index.length df.columns.length df.columns.nlevels
    (df.index.names.any (fun name => name.isSome))
    (df.columns.names.any (fun name => name.isSome))
    x_offset y_offset

/-- C10: a coordinate built 0-based exposes `excel_x = x + 1` and
`excel_y = y + 1`, and rebuilding from those 1-based values with the
`excel_based` flag yields a structurally equal coordinate. -/
theorem cell_position_roundtrip (x y : Int) :
    (CellPosition.init x y false).excel_x = x + 1
    ∧ (CellPosition.init x y false).excel_y = y + 1
    ∧ CellPosition.init (CellPosition.init x y false).excel_x
        (CellPosition.init x y false).excel_y true = CellPosition.init x y false := by
  refine ⟨rfl, rfl, ?_⟩
  simp only [CellPosition.init, CellPosition.excel_x, CellPosition.excel_y,
    if_true, if_false, Bool.false_eq_true, CellPosition.mk.injEq]
  constructor <;> omega

/-- C7: the layout built with 2 index levels, 3 rows, 1 column level,
2 columns, index names present, no column names, origin (0,0) places the
row-index region at `y_start = 2` and the data region at (2,2) with
width 2 and height 3. -/
theorem layout_scenario :
    (TableLayout.init 2 3 2 1 true false 0 0).index.y_start = 2
    ∧ (TableLayout.init 2 3 2 1 true false 0 0).data_layout.position = ⟨2, 2⟩
    ∧ (TableLayout.init 2 3 2 1 true false 0 0).data_layout.width = 2
    ∧ (TableLayout.init 2 3 2 1 true false 0 0).data_layout.height = 3 := by
  refine ⟨rfl, rfl, rfl, rfl⟩

/-- C8: every constructed `TableLayout` satisfies
`total_width = index.width + data_layout.width` and
`total_height = columns.height + (1 if has_index_names else 0) + index.height`. -/
theorem layout_total_dimensions (index_width index_height column_width column_height : Int)
    (has_index_names has_column_names : Bool) (x_offset y_offset : Int) :
    (TableLayout.init index_width index_height column_width column_height
        has_index_names has_column_names x_offset y_offset).total_width
      = (TableLayout.init index_width index_height column_width column_height
          has_index_names has_column_names x_offset y_offset).index.toBaseLayout.width
        + (TableLayout.init index_width index_height column_width column_height
            has_index_names has_column_names x_offset y_offset).data_layout.width
    ∧ (TableLayout.init index_width index_height column_width column_height
        has_index_names has_column_names x_offset y_offset).total_height
      = (TableLayout.init index_width index_height column_width column_height
          has_index_names has_column_names x_offset y_offset).columns.toBaseLayout.height
        + (if has_index_names then 1 else 0)
        + (TableLayout.init index_width index_height column_width column_height
            has_index_names has_column_names x_offset y_offset).index.toBaseLayout.height := by
  refine ⟨rfl, ?_⟩
  cases has_index_names <;> rfl

/-- A span from `get_contiguous_spans`: a maximal run of equal values with
its start position, the repeated value, and the run length. -/
structure Span (α : Type) where
  start : Nat
  value : α
  count : Nat
deriving DecidableEq, Repr

/-- Loop of `get_contiguous_spans`, processing the values after the first
one: `prev` is the value of the open span, `start_idx` its start position,
`i` the position of the head of the remaining list.  A new span is opened
(and the previous one emitted) whenever the value changes; the open span is
emitted at end of input. -/
def get_contiguous_spans_go {α : Type} [DecidableEq α] :
    List α → α → Nat → Nat → List (Span α)
  | [], prev, start_idx, i => [⟨start_idx, prev, i - start_idx⟩]
  | val :: rest, prev, start_idx, i =>
    if val ≠ prev then
      ⟨start_idx, prev, i - start_idx⟩ :: get_contiguous_spans_go rest val i (i + 1)
    else
      get_contiguous_spans_go rest prev start_idx (i + 1)

/-- `get_contiguous_spans` from `flatbreadxl/spans.py`: identify the
contiguous runs of equal values in a list. -/
def get_contiguous_spans {α : Type} [DecidableEq α] : List α → List (Span α)
  | [] => []
  | val :: rest => get_contiguous_spans_go rest val 0 1

/-- `get_level_spans` from `flatbreadxl/spans.py`: per-level spans; a flat
index gets one level, a MultiIndex gets one span list per level, computed on
the keys truncated to `level + 1` components. -/
def get_level_spans (index : PIndex) (max_level : Option Nat) : List (List (Span PyVal)) :=
  match index with
  | .flat labels _ => [get_contiguous_spans (labels.map PyVal.s)]
  | .multi nlevels keys _ =>
    let n_levels := max_level.getD nlevels
    (List.range n_levels).map (fun level =>
      get_contiguous_spans (keys.map (fun idx => PyVal.tup (idx.take (level + 1)))))

/-- Re-expand each span into `count` copies of its value, in order. -/
def expand_spans {α : Type} (spans : List (Span α)) : List α :=
  (spans.map (fun s => List.replicate s.count s.value)).flatten

/-- `tiles a b l` says the spans `l` tile the position interval `[a, b)` in
order: the first span starts at `a`, counts are positive, each span starts
where the previous ended, and the last ends at `b`. -/
def tiles {α : Type} : Nat → Nat → List (Span α) → Prop
  | a, b, [] => a = b
  | a, b, s :: rest => s.start = a ∧ 0 < s.count ∧ tiles (a + s.count) b rest

theorem tiles_go {α : Type} [DecidableEq α] (vals : List α) :
    ∀ (prev : α) (start_idx i : Nat), start_idx < i →
      tiles start_idx (i + vals.length) (get_contiguous_spans_go vals prev start_idx i) := by
  induction vals with
  | nil =>
    intro prev start_idx i h
    simp only [get_contiguous_spans_go, List.length_nil]
    show start_idx = start_idx ∧ 0 < i - start_idx ∧ start_idx + (i - start_idx) = i + 0
    omega
  | cons v rest ih =>
    intro prev start_idx i h
    simp only [get_contiguous_spans_go, List.length_cons]
    by_cases hv : v = prev
    · rw [if_neg (by simp [hv])]
      have := ih prev start_idx (i + 1) (by omega)
      have harr : i + 1 + rest.length = i + (rest.length + 1) := by omega
      rwa [harr] at this
    · rw [if_pos hv]
      show start_idx = start_idx ∧ 0 < i - start_idx
        ∧ tiles (start_idx + (i - start_idx)) (i + (rest.length + 1))
            (get_contiguous_spans_go rest v i (i + 1))
      refine ⟨rfl, by omega, ?_⟩
      have := ih v i (i + 1) (by omega)
      have harr : start_idx + (i - start_idx) = i := by omega
      have harr2 : i + (rest.length + 1) = i + 1 + rest.length := by omega
      rw [harr, harr2]
      exact this

theorem tiles_spans {α : Type} [DecidableEq α] (vals : List α) :
    tiles 0 vals.length (get_contiguous_spans vals) := by
  cases vals with
  | nil => exact rfl
  | cons v rest =>
    have := tiles_go rest v 0 1 (by omega)
    have harr : 1 + rest.length = rest.length + 1 := by omega
    rw [harr] at this
    exact this

theorem tiles_sum {α : Type} (l : List (Span α)) :
    ∀ a b : Nat, tiles a b l → a + (l.map Span.count).sum = b := by
  induction l with
  | nil => intro a b h; simpa [tiles] using h
  | cons s rest ih =>
    intro a b h
    obtain ⟨-, -, htail⟩ := h
    have := ih (a + s.count) b htail
    simp only [List.map_cons, List.sum_cons]
    omega

theorem tiles_lower_bound {α : Type} (l : List (Span α)) :
    ∀ a b : Nat, tiles a b l → ∀ s ∈ l, a ≤ s.start ∧ s.start + s.count ≤ b := by
  induction l with
  | nil => intro a b _ s hs; simp at hs
  | cons t rest ih =>
    intro a b h s hs
    obtain ⟨hstart, hcount, htail⟩ := h
    rcases List.mem_cons.mp hs with rfl | hmem
    · have hsum := tiles_sum rest (a + s.count) b htail
      constructor
      · omega
      · omega
    · have := ih (a + t.count) b htail s hmem
      omega

/-- Two spans cover disjoint position sets. -/
def span_disjoint {α : Type} (s t : Span α) : Bool :=
  decide (s.start + s.count ≤ t.start) || decide (t.start + t.count ≤ s.start)

theorem tiles_pairwise {α : Type} (l : List (Span α)) :
    ∀ a b : Nat, tiles a b l →
      l.Pairwise (fun s t => s.start + s.count ≤ t.start ∧ s.start < t.start) := by
  induction l with
  | nil => intro a b _; exact List.Pairwise.nil
  | cons s rest ih =>
    intro a b h
    obtain ⟨hstart, hcount, htail⟩ := h
    refine List.Pairwise.cons ?_ (ih (a + s.count) b htail)
    intro t ht
    have := tiles_lower_bound rest (a + s.count) b htail t ht
    omega

theorem spans_partition_core {α : Type} [DecidableEq α] (vals : List α) :
    tiles 0 vals.length (get_contiguous_spans vals)
    ∧ ((get_contiguous_spans vals).map Span.count).sum = vals.length
    ∧ (get_contiguous_spans vals).Pairwise (fun s t => span_disjoint s t = true)
    ∧ (get_contiguous_spans vals).Pairwise (fun s t => s.start < t.start) := by
  have ht := tiles_spans vals
  have hsum := tiles_sum (get_contiguous_spans vals) 0 vals.length ht
  have hpw := tiles_pairwise (get_contiguous_spans vals) 0 vals.length ht
  refine ⟨ht, by omega, ?_, ?_⟩
  · exact hpw.imp (fun h => by simp [span_disjoint]; omega)
  · exact hpw.imp (fun h => h.2)

/-- C4: for every index and level bound, every per-level output of the span
detector partitions `[0, len(keys))` exactly — spans tile the range in
order with positive counts, are pairwise disjoint, ordered by start, and
their counts sum to the key count; and the empty input yields the empty
span list. -/
theorem span_detector_partition (index : PIndex) (max_level : Option Nat) :
    (∀ level_spans ∈ get_level_spans index max_level,
      tiles 0 index.length level_spans
      ∧ (level_spans.map Span.count).sum = index.length
      ∧ level_spans.Pairwise (fun s t => span_disjoint s t = true)
      ∧ level_spans.Pairwise (fun s t => s.start < t.start))
    ∧ get_contiguous_spans ([] : List PyVal) = [] := by
  refine ⟨?_, rfl⟩
  intro level_spans hmem
  cases index with
  | flat labels name =>
    simp only [get_level_spans, List.mem_singleton] at hmem
    subst hmem
    have := spans_partition_core (labels.map PyVal.s)
    simpa [PIndex.length] using this
  | multi nlevels keys names =>
    simp only [get_level_spans, List.mem_map, List.mem_range] at hmem
    obtain ⟨level, -, rfl⟩ := hmem
    have := spans_partition_core (keys.map (fun idx => PyVal.tup (idx.take (level + 1))))
    simpa [PIndex.length] using this

/-- C4 witness: the partition property evaluated on a concrete two-key
MultiIndex. -/
theorem span_detector_partition_witness :
    tiles 0 2 [⟨0, PyVal.tup [Scalar.int 1], 2⟩]
    ∧ ([(⟨0, PyVal.tup [Scalar.int 1], 2⟩ : Span PyVal)].map Span.count).sum = 2 := by
  have h := (span_detector_partition
    (PIndex.multi 1 [[Scalar.int 1], [Scalar.int 1]] [none]) none).1
    [⟨0, PyVal.tup [Scalar.int 1], 2⟩] (by decide)
  exact ⟨h.1, h.2.1⟩

theorem expand_spans_go {α : Type} [DecidableEq α] (vals : List α) :
    ∀ (prev : α) (start_idx i : Nat), start_idx ≤ i →
      expand_spans (get_contiguous_spans_go vals prev start_idx i)
        = List.replicate (i - start_idx) prev ++ vals := by
  induction vals with
  | nil =>
    intro prev start_idx i h
    simp [get_contiguous_spans_go, expand_spans]
  | cons v rest ih =>
    intro prev start_idx i h
    simp only [get_contiguous_spans_go]
    by_cases hv : v = prev
    · rw [if_neg (by simp [hv])]
      rw [ih prev start_idx (i + 1) (by omega)]
      have : i + 1 - start_idx = (i - start_idx) + 1 := by omega
      rw [this, List.replicate_succ']
      simp [hv]
    · rw [if_pos hv]
      simp only [expand_spans, List.map_cons, List.flatten_cons]
      have := ih v i (i + 1) (by omega)
      simp only [expand_spans] at this
      rw [this]
      have hone : i + 1 - i = 1 := by omega
      rw [hone]
      simp

/-- C5: re-expanding each span of the span detector's output into `count`
copies of its value, in order, reconstructs the input exactly. -/
theorem spans_roundtrip (vals : List PyVal) :
    expand_spans (get_contiguous_spans vals) = vals := by
  cases vals with
  | nil => rfl
  | cons v rest =>
    simpa using expand_spans_go rest v 0 1 (by omega)

/-- `MergeRange` from `pandasxl/merge.py`: an inclusive rectangle
`(start_row, start_col, end_row, end_col)` in 1-based sink coordinates. -/
structure MergeRange where
  start_row : Int
  start_col : Int
  end_row : Int
  end_col : Int
deriving DecidableEq, Repr

/-- Two merge ranges overlap when they share at least one cell: both their
row intervals and their column intervals intersect. -/
abbrev ranges_overlap (r s : MergeRange) : Prop :=
  max r.start_row s.start_row ≤ min r.end_row s.end_row
  ∧ max r.start_col s.start_col ≤ min r.end_col s.end_col

/-- Body of the inner loop of `get_merge_ranges_from_spans` for one level:
spans of count greater than 1 become a vertical merge (row index) or a
horizontal merge (column index); spans of count 1 produce nothing. -/
def merge_ranges_for_level {α : Type} (layout : AxisLayout) (is_row_index : Bool)
    (level : Nat) : List (Span α) → List MergeRange
  | [] => []
  | span :: rest =>
    (if span.count > 1 then
      if is_row_index then
        let cell_start := layout.cell_at level span.start
        let cell_end := layout.cell_at level (span.start + span.count - 1)
        [⟨cell_start.excel_y, cell_start.excel_x, cell_end.excel_y, cell_start.excel_x⟩]
      else
        let cell_start := layout.cell_at span.start level
        let cell_end := layout.cell_at (span.start + span.count - 1) level
        [⟨cell_start.excel_y, cell_start.excel_x, cell_start.excel_y, cell_end.excel_x⟩]
    else [])
    ++ merge_ranges_for_level layout is_row_index level rest

/-- Outer loop of `get_merge_ranges_from_spans` (`enumerate(spans)`),
carrying the current level. -/
def merge_ranges_levels {α : Type} (layout : AxisLayout) (is_row_index : Bool) :
    Nat → List (List (Span α)) → List MergeRange
  | _, [] => []
  | level, level_spans :: rest =>
    merge_ranges_for_level layout is_row_index level level_spans
      ++ merge_ranges_levels layout is_row_index (level + 1) rest

/-- `get_merge_ranges_from_spans` from `flatbreadxl/spans.py`. -/
def get_merge_ranges_from_spans {α : Type} (spans : List (List (Span α)))
    (layout : AxisLayout) (is_row_index : Bool) : List MergeRange :=
  merge_ranges_levels layout is_row_index 0 spans

/-- `pd.isna(value) or value == ''`: the blank test of `get_empty_spans`. -/
def is_blank (v : Scalar) : Bool :=
  match v with
  | .null => true
  | .str s => s == ""
  | .int _ => false

/-- One row's scan of `get_empty_spans`: walk the key components from
level 1, tracking the open run of blanks (`span_start`) and the last
non-blank level; close a run when a non-blank component is found, and close
a run that reaches the end of the key at level `nlevels - 1`. -/
def empty_spans_row (layout_index : AxisLayout) (nlevels : Nat) (i : Nat) :
    List Scalar → Nat → Option Nat → Nat → List MergeRange → List MergeRange
  | [], _level, span_start, last_non_empty, acc =>
    match span_start with
    | some _ =>
      let start_cell := layout_index.cell_at last_non_empty i
      let end_cell := layout_index.cell_at ((nlevels : Int) - 1) i
      acc ++ [⟨start_cell.excel_y, start_cell.excel_x, end_cell.excel_y, end_cell.excel_x⟩]
    | none => acc
  | value :: rest, level, span_start, last_non_empty, acc =>
    if is_blank value then
      empty_spans_row layout_index nlevels i rest (level + 1)
        (match span_start with | none => some level | some s => some s) last_non_empty acc
    else
      match span_start with
      | some _ =>
        let start_cell := layout_index.cell_at last_non_empty i
        let end_cell := layout_index.cell_at ((level : Int) - 1) i
        empty_spans_row layout_index nlevels i rest (level + 1) none level
          (acc ++ [⟨start_cell.excel_y, start_cell.excel_x, end_cell.excel_y, end_cell.excel_x⟩])
      | none => empty_spans_row layout_index nlevels i rest (level + 1) none level acc

/-- The row loop of `get_empty_spans` (`enumerate(df.index)`), carrying
the current row position. -/
def empty_spans_rows (layout_index : AxisLayout) (nlevels : Nat) :
    Nat → List Key → List MergeRange
  | _, [] => []
  | i, idx :: rest =>
    empty_spans_row layout_index nlevels i (idx.drop 1) 1 none 0 []
      ++ empty_spans_rows layout_index nlevels (i + 1) rest

/-- `get_empty_spans` from `flatbreadxl/spans.py`: merge ranges for the runs
of blank components inside each MultiIndex row key; a flat index yields
nothing. -/
def get_empty_spans (df : DataFrame) (layout : TableLayout) : List MergeRange :=
  match df.index with
  | .flat _ _ => []
  | .multi nlevels keys _ => empty_spans_rows layout.index nlevels 0 keys

/-- `get_all_merge_ranges` from `flatbreadxl/spans.py`: the row-header
merges, the column-header merges and the blank-run merges, concatenated. -/
def get_all_merge_ranges (df : DataFrame) (layout : TableLayout) : List MergeRange :=
  let row_spans := get_level_spans df.index none
  let column_spans := get_level_spans df.columns none
  let row_merges := get_merge_ranges_from_spans row_spans layout.index true
  let column_merges := get_merge_ranges_from_spans column_spans layout.columns false
  let empty_merges := get_empty_spans df layout
  row_merges ++ column_merges ++ empty_merges

/-- The row-axis outputs of a `get_all_merge_ranges` call: the row-header
vertical merges together with the blank-trailing horizontal merges. -/
def row_axis_merge_ranges (df : DataFrame) (layout : TableLayout) : List MergeRange :=
  get_merge_ranges_from_spans (get_level_spans df.index none) layout.index true
    ++ get_empty_spans df layout


theorem not_overlap_of_rows (r s : MergeRange)
    (h : r.end_row < s.start_row ∨ s.end_row < r.start_row) :
    ¬ ranges_overlap r s := by
  rintro ⟨h1, -⟩
  simp only [max_le_iff, le_min_iff] at h1
  omega

theorem not_overlap_of_cols (r s : MergeRange)
    (h : r.end_col < s.start_col ∨ s.end_col < r.start_col) :
    ¬ ranges_overlap r s := by
  rintro ⟨-, h2⟩
  simp only [max_le_iff, le_min_iff] at h2
  omega

theorem merge_level_cons_row {α : Type} (layout : AxisLayout) (level : Nat)
    (s : Span α) (rest : List (Span α)) :
    merge_ranges_for_level layout true level (s :: rest)
      = (if 1 < s.count
          then [⟨layout.y_start + (s.start : Int) + 1, layout.x_start + (level : Int) + 1,
                 layout.y_start + ((s.start : Int) + (s.count : Int) - 1) + 1,
                 layout.x_start + (level : Int) + 1⟩]
          else [])
        ++ merge_ranges_for_level layout true level rest := rfl

theorem merge_level_cons_col {α : Type} (layout : AxisLayout) (level : Nat)
    (s : Span α) (rest : List (Span α)) :
    merge_ranges_for_level layout false level (s :: rest)
      = (if 1 < s.count
          then [⟨layout.y_start + (level : Int) + 1, layout.x_start + (s.start : Int) + 1,
                 layout.y_start + (level : Int) + 1,
                 layout.x_start + ((s.start : Int) + (s.count : Int) - 1) + 1⟩]
          else [])
        ++ merge_ranges_for_level layout false level rest := rfl

theorem row_merge_level_mem {α : Type} (layout : AxisLayout) (level : Nat) :
    ∀ (ls : List (Span α)) (r : MergeRange), r ∈ merge_ranges_for_level layout true level ls →
      ∃ s ∈ ls, 1 < s.count
        ∧ r = ⟨layout.y_start + (s.start : Int) + 1, layout.x_start + (level : Int) + 1,
               layout.y_start + ((s.start : Int) + (s.count : Int) - 1) + 1,
               layout.x_start + (level : Int) + 1⟩ := by
  intro ls
  induction ls with
  | nil => intro r hr; simp [merge_ranges_for_level] at hr
  | cons s rest ih =>
    intro r hr
    rw [merge_level_cons_row] at hr
    by_cases hc : 1 < s.count
    · rw [if_pos hc, List.singleton_append] at hr
      rcases List.mem_cons.mp hr with rfl | hr
      · exact ⟨s, List.mem_cons_self s rest, hc, rfl⟩
      · obtain ⟨t, ht, h1, h2⟩ := ih r hr
        exact ⟨t, List.mem_cons_of_mem s ht, h1, h2⟩
    · rw [if_neg hc, List.nil_append] at hr
      obtain ⟨t, ht, h1, h2⟩ := ih r hr
      exact ⟨t, List.mem_cons_of_mem s ht, h1, h2⟩

theorem col_merge_level_mem {α : Type} (layout : AxisLayout) (level : Nat) :
    ∀ (ls : List (Span α)) (r : MergeRange), r ∈ merge_ranges_for_level layout false level ls →
      ∃ s ∈ ls, 1 < s.count
        ∧ r = ⟨layout.y_start + (level : Int) + 1, layout.x_start + (s.start : Int) + 1,
               layout.y_start + (level : Int) + 1,
               layout.x_start + ((s.start : Int) + (s.count : Int) - 1) + 1⟩ := by
  intro ls
  induction ls with
  | nil => intro r hr; simp [merge_ranges_for_level] at hr
  | cons s rest ih =>
    intro r hr
    rw [merge_level_cons_col] at hr
    by_cases hc : 1 < s.count
    · rw [if_pos hc, List.singleton_append] at hr
      rcases List.mem_cons.mp hr with rfl | hr
      · exact ⟨s, List.mem_cons_self s rest, hc, rfl⟩
      · obtain ⟨t, ht, h1, h2⟩ := ih r hr
        exact ⟨t, List.mem_cons_of_mem s ht, h1, h2⟩
    · rw [if_neg hc, List.nil_append] at hr
      obtain ⟨t, ht, h1, h2⟩ := ih r hr
      exact ⟨t, List.mem_cons_of_mem s ht, h1, h2⟩

theorem row_merges_level_pairwise {α : Type} (layout : AxisLayout) (level : Nat) :
    ∀ (ls : List (Span α)) (a b : Nat), tiles a b ls →
      (merge_ranges_for_level layout true level ls).Pairwise
        (fun r s => ¬ ranges_overlap r s) := by
  intro ls
  induction ls with
  | nil => intro a b _; exact List.Pairwise.nil
  | cons s rest ih =>
    intro a b ht
    obtain ⟨hstart, hcount, htail⟩ := ht
    rw [merge_level_cons_row]
    by_cases hc : 1 < s.count
    · rw [if_pos hc, List.singleton_append]
      refine List.Pairwise.cons ?_ (ih (a + s.count) b htail)
      intro t htm
      obtain ⟨u, hu, hcu, rfl⟩ := row_merge_level_mem layout level rest t htm
      obtain ⟨hub, -⟩ := tiles_lower_bound rest (a + s.count) b htail u hu
      apply not_overlap_of_rows
      left
      simp only
      omega
    · rw [if_neg hc, List.nil_append]
      exact ih (a + s.count) b htail

theorem col_merges_level_pairwise {α : Type} (layout : AxisLayout) (level : Nat) :
    ∀ (ls : List (Span α)) (a b : Nat), tiles a b ls →
      (merge_ranges_for_level layout false level ls).Pairwise
        (fun r s => ¬ ranges_overlap r s) := by
  intro ls
  induction ls with
  | nil => intro a b _; exact List.Pairwise.nil
  | cons s rest ih =>
    intro a b ht
    obtain ⟨hstart, hcount, htail⟩ := ht
    rw [merge_level_cons_col]
    by_cases hc : 1 < s.count
    · rw [if_pos hc, List.singleton_append]
      refine List.Pairwise.cons ?_ (ih (a + s.count) b htail)
      intro t htm
      obtain ⟨u, hu, hcu, rfl⟩ := col_merge_level_mem layout level rest t htm
      obtain ⟨hub, -⟩ := tiles_lower_bound rest (a + s.count) b htail u hu
      apply not_overlap_of_cols
      left
      simp only
      omega
    · rw [if_neg hc, List.nil_append]
      exact ih (a + s.count) b htail

theorem row_merges_levels_mem_col {α : Type} (layout : AxisLayout) :
    ∀ (spans : List (List (Span α))) (level : Nat) (r : MergeRange),
      r ∈ merge_ranges_levels layout true level spans →
      ∃ lv : Nat, level ≤ lv
        ∧ r.start_col = layout.x_start + (lv : Int) + 1
        ∧ r.end_col = layout.x_start + (lv : Int) + 1 := by
  intro spans
  induction spans with
  | nil => intro level r hr; simp [merge_ranges_levels] at hr
  | cons ls rest ih =>
    intro level r hr
    simp only [merge_ranges_levels] at hr
    rcases List.mem_append.mp hr with hr | hr
    · obtain ⟨s, -, -, rfl⟩ := row_merge_level_mem layout level ls r hr
      exact ⟨level, le_refl level, rfl, rfl⟩
    · obtain ⟨lv, hlv, h1, h2⟩ := ih (level + 1) r hr
      exact ⟨lv, by omega, h1, h2⟩

theorem col_merges_levels_mem_row {α : Type} (layout : AxisLayout) :
    ∀ (spans : List (List (Span α))) (level : Nat) (r : MergeRange),
      r ∈ merge_ranges_levels layout false level spans →
      ∃ lv : Nat, level ≤ lv
        ∧ r.start_row = layout.y_start + (lv : Int) + 1
        ∧ r.end_row = layout.y_start + (lv : Int) + 1 := by
  intro spans
  induction spans with
  | nil => intro level r hr; simp [merge_ranges_levels] at hr
  | cons ls rest ih =>
    intro level r hr
    simp only [merge_ranges_levels] at hr
    rcases List.mem_append.mp hr with hr | hr
    · obtain ⟨s, -, -, rfl⟩ := col_merge_level_mem layout level ls r hr
      exact ⟨level, le_refl level, rfl, rfl⟩
    · obtain ⟨lv, hlv, h1, h2⟩ := ih (level + 1) r hr
      exact ⟨lv, by omega, h1, h2⟩

theorem row_merges_levels_pairwise {α : Type} (layout : AxisLayout) :
    ∀ (spans : List (List (Span α))) (level : Nat),
      (∀ ls ∈ spans, ∃ a b, tiles a b ls) →
      (merge_ranges_levels layout true level spans).Pairwise
        (fun r s => ¬ ranges_overlap r s) := by
  intro spans
  induction spans with
  | nil => intro level _; exact List.Pairwise.nil
  | cons ls rest ih =>
    intro level hts
    simp only [merge_ranges_levels]
    rw [List.pairwise_append]
    obtain ⟨a, b, hab⟩ := hts ls (List.mem_cons_self ls rest)
    refine ⟨row_merges_level_pairwise layout level ls a b hab,
      ih (level + 1) (fun l hl => hts l (List.mem_cons_of_mem ls hl)), ?_⟩
    intro r hr t htm
    obtain ⟨s, -, -, rfl⟩ := row_merge_level_mem layout level ls r hr
    obtain ⟨lv, hlv, h1, h2⟩ := row_merges_levels_mem_col layout rest (level + 1) t htm
    apply not_overlap_of_cols
    left
    simp only [h1]
    omega

theorem col_merges_levels_pairwise {α : Type} (layout : AxisLayout) :
    ∀ (spans : List (List (Span α))) (level : Nat),
      (∀ ls ∈ spans, ∃ a b, tiles a b ls) →
      (merge_ranges_levels layout false level spans).Pairwise
        (fun r s => ¬ ranges_overlap r s) := by
  intro spans
  induction spans with
  | nil => intro level _; exact List.Pairwise.nil
  | cons ls rest ih =>
    intro level hts
    simp only [merge_ranges_levels]
    rw [List.pairwise_append]
    obtain ⟨a, b, hab⟩ := hts ls (List.mem_cons_self ls rest)
    refine ⟨col_merges_level_pairwise layout level ls a b hab,
      ih (level + 1) (fun l hl => hts l (List.mem_cons_of_mem ls hl)), ?_⟩
    intro r hr t htm
    obtain ⟨s, -, -, rfl⟩ := col_merge_level_mem layout level ls r hr
    obtain ⟨lv, hlv, h1, h2⟩ := col_merges_levels_mem_row layout rest (level + 1) t htm
    apply not_overlap_of_rows
    left
    simp only [h1]
    omega

theorem get_level_spans_tiles (index : PIndex) (max_level : Option Nat) :
    ∀ ls ∈ get_level_spans index max_level, tiles 0 index.length ls := by
  intro ls hmem
  cases index with
  | flat labels name =>
    simp only [get_level_spans, List.mem_singleton] at hmem
    subst hmem
    simpa [PIndex.length] using tiles_spans (labels.map PyVal.s)
  | multi nlevels keys names =>
    simp only [get_level_spans, List.mem_map, List.mem_range] at hmem
    obtain ⟨level, -, rfl⟩ := hmem
    simpa [PIndex.length] using
      tiles_spans (keys.map (fun idx => PyVal.tup (idx.take (level + 1))))

theorem empty_spans_row_mem_row (layout : AxisLayout) (nlevels : Nat) (i : Nat) :
    ∀ (vals : List Scalar) (level : Nat) (ss : Option Nat) (lne : Nat) (acc : List MergeRange),
      (∀ r ∈ acc, r.start_row = layout.y_start + (i : Int) + 1
        ∧ r.end_row = layout.y_start + (i : Int) + 1) →
      ∀ r ∈ empty_spans_row layout nlevels i vals level ss lne acc,
        r.start_row = layout.y_start + (i : Int) + 1
        ∧ r.end_row = layout.y_start + (i : Int) + 1 := by
  intro vals
  induction vals with
  | nil =>
    intro level ss lne acc hacc r hr
    cases ss with
    | none => exact hacc r hr
    | some s =>
      simp only [empty_spans_row] at hr
      rcases List.mem_append.mp hr with hr | hr
      · exact hacc r hr
      · rw [List.mem_singleton] at hr
        subst hr
        exact ⟨rfl, rfl⟩
  | cons v rest ih =>
    intro level ss lne acc hacc r hr
    simp only [empty_spans_row] at hr
    by_cases hb : is_blank v = true
    · rw [if_pos hb] at hr
      exact ih (level + 1) _ lne acc hacc r hr
    · rw [if_neg hb] at hr
      cases ss with
      | none => exact ih (level + 1) none level acc hacc r hr
      | some s =>
        refine ih (level + 1) none level _ ?_ r hr
        intro t ht
        rcases List.mem_append.mp ht with ht | ht
        · exact hacc t ht
        · rw [List.mem_singleton] at ht
          subst ht
          exact ⟨rfl, rfl⟩

theorem empty_spans_row_pairwise (layout : AxisLayout) (nlevels : Nat) (i : Nat) :
    ∀ (vals : List Scalar) (level : Nat) (ss : Option Nat) (lne : Nat) (acc : List MergeRange),
      acc.Pairwise (fun r s => ¬ ranges_overlap r s) →
      (∀ r ∈ acc, r.end_col ≤ layout.x_start + (lne : Int)) →
      lne ≤ level →
      (empty_spans_row layout nlevels i vals level ss lne acc).Pairwise
        (fun r s => ¬ ranges_overlap r s) := by
  intro vals
  induction vals with
  | nil =>
    intro level ss lne acc hpw hbound hle
    cases ss with
    | none => exact hpw
    | some s =>
      simp only [empty_spans_row]
      rw [List.pairwise_append]
      refine ⟨hpw, List.pairwise_singleton _ _, ?_⟩
      intro r hr t ht
      rw [List.mem_singleton] at ht
      subst ht
      apply not_overlap_of_cols
      left
      have := hbound r hr
      simp only [AxisLayout.cell_at, BaseLayout.cell_at, CellPosition.excel_x,
        AxisLayout.x_start] at *
      omega
  | cons v rest ih =>
    intro level ss lne acc hpw hbound hle
    simp only [empty_spans_row]
    by_cases hb : is_blank v = true
    · rw [if_pos hb]
      exact ih (level + 1) _ lne acc hpw hbound (by omega)
    · rw [if_neg hb]
      cases ss with
      | none =>
        refine ih (level + 1) none level acc hpw ?_ (by omega)
        intro r hr
        have := hbound r hr
        omega
      | some s =>
        refine ih (level + 1) none level _ ?_ ?_ (by omega)
        · rw [List.pairwise_append]
          refine ⟨hpw, List.pairwise_singleton _ _, ?_⟩
          intro r hr t ht
          rw [List.mem_singleton] at ht
          subst ht
          apply not_overlap_of_cols
          left
          have := hbound r hr
          simp only [AxisLayout.cell_at, BaseLayout.cell_at, CellPosition.excel_x,
            AxisLayout.x_start] at *
          omega
        · intro r hr
          rcases List.mem_append.mp hr with hr | hr
          · have := hbound r hr
            omega
          · rw [List.mem_singleton] at hr
            subst hr
            simp only [AxisLayout.cell_at, BaseLayout.cell_at, CellPosition.excel_x,
              AxisLayout.x_start]
            omega

theorem empty_spans_rows_mem (layout : AxisLayout) (nlevels : Nat) :
    ∀ (keys : List Key) (i0 : Nat) (r : MergeRange),
      r ∈ empty_spans_rows layout nlevels i0 keys →
      ∃ i : Nat, i0 ≤ i
        ∧ r.start_row = layout.y_start + (i : Int) + 1
        ∧ r.end_row = layout.y_start + (i : Int) + 1 := by
  intro keys
  induction keys with
  | nil => intro i0 r hr; simp [empty_spans_rows] at hr
  | cons idx rest ih =>
    intro i0 r hr
    simp only [empty_spans_rows] at hr
    rcases List.mem_append.mp hr with hr | hr
    · have := empty_spans_row_mem_row layout nlevels i0 (idx.drop 1) 1 none 0 []
        (by intro t ht; simp at ht) r hr
      exact ⟨i0, le_refl i0, this⟩
    · obtain ⟨i, hi, h1, h2⟩ := ih (i0 + 1) r hr
      exact ⟨i, by omega, h1, h2⟩

theorem empty_spans_rows_pairwise (layout : AxisLayout) (nlevels : Nat) :
    ∀ (keys : List Key) (i0 : Nat),
      (empty_spans_rows layout nlevels i0 keys).Pairwise
        (fun r s => ¬ ranges_overlap r s) := by
  intro keys
  induction keys with
  | nil => intro i0; exact List.Pairwise.nil
  | cons idx rest ih =>
    intro i0
    simp only [empty_spans_rows]
    rw [List.pairwise_append]
    refine ⟨empty_spans_row_pairwise layout nlevels i0 (idx.drop 1) 1 none 0 []
      List.Pairwise.nil (by intro t ht; simp at ht) (by omega), ih (i0 + 1), ?_⟩
    intro r hr t ht
    have hrrow := empty_spans_row_mem_row layout nlevels i0 (idx.drop 1) 1 none 0 []
      (by intro u hu; simp at hu) r hr
    obtain ⟨i, hi, h1, h2⟩ := empty_spans_rows_mem layout nlevels rest (i0 + 1) t ht
    apply not_overlap_of_rows
    left
    rw [hrrow.2, h1]
    omega

/-- C1 amended: within each of the three families produced by a single
`get_all_merge_ranges` call — the row-header vertical merges, the
column-header horizontal merges, and the blank-trailing merges — no two
distinct ranges overlap.  (The original claim fails: a row-header vertical
merge can overlap a blank-trailing merge of the same call; see the
counterexample.) -/
theorem merge_range_families_disjoint (df : DataFrame) (layout : TableLayout) :
    (get_merge_ranges_from_spans (get_level_spans df.index none) layout.index true).Pairwise
      (fun r s => ¬ ranges_overlap r s)
    ∧ (get_merge_ranges_from_spans (get_level_spans df.columns none) layout.columns false).Pairwise
      (fun r s => ¬ ranges_overlap r s)
    ∧ (get_empty_spans df layout).Pairwise (fun r s => ¬ ranges_overlap r s) := by
  refine ⟨?_, ?_, ?_⟩
  · exact row_merges_levels_pairwise layout.index (get_level_spans df.index none) 0
      (fun ls hl => ⟨0, df.index.length, get_level_spans_tiles df.index none ls hl⟩)
  · exact col_merges_levels_pairwise layout.columns (get_level_spans df.columns none) 0
      (fun ls hl => ⟨0, df.columns.length, get_level_spans_tiles df.columns none ls hl⟩)
  · cases hdf : df.index with
    | flat labels name => simp [get_empty_spans, hdf]
    | multi nlevels keys names =>
      simp only [get_empty_spans, hdf]
      exact empty_spans_rows_pairwise layout.index nlevels keys 0

/-- C1 counterexample: for the DataFrame with row MultiIndex
`[(1, None), (1, None)]` and one flat column, a single
`get_all_merge_ranges` call produces, among its row-axis outputs, the
level-0 vertical header merge `(2,1,3,1)` and the blank-trailing merge
`(2,1,2,2)` of row 0, two distinct ranges that share cell `(2,1)`. -/
theorem all_merge_ranges_overlap_cx :
    (⟨2, 1, 3, 1⟩ : MergeRange) ∈ row_axis_merge_ranges
        ⟨.multi 2 [[.int 1, .null], [.int 1, .null]] [none, none], .flat [.int 0] none⟩
        (TableLayout.from_df
          ⟨.multi 2 [[.int 1, .null], [.int 1, .null]] [none, none], .flat [.int 0] none⟩ 0 0)
    ∧ (⟨2, 1, 2, 2⟩ : MergeRange) ∈ row_axis_merge_ranges
        ⟨.multi 2 [[.int 1, .null], [.int 1, .null]] [none, none], .flat [.int 0] none⟩
        (TableLayout.from_df
          ⟨.multi 2 [[.int 1, .null], [.int 1, .null]] [none, none], .flat [.int 0] none⟩ 0 0)
    ∧ (⟨2, 1, 3, 1⟩ : MergeRange) ≠ ⟨2, 1, 2, 2⟩
    ∧ ranges_overlap ⟨2, 1, 3, 1⟩ ⟨2, 1, 2, 2⟩ := by
  refine ⟨?_, ?_, by decide, by decide⟩ <;> decide

theorem empty_row_scan_nonblank (layout : AxisLayout) (nlevels i : Nat) :
    ∀ (ps rest : List Scalar) (level lne : Nat) (acc : List MergeRange),
      (∀ v ∈ ps, is_blank v = false) →
      empty_spans_row layout nlevels i (ps ++ rest) level none lne acc
        = empty_spans_row layout nlevels i rest (level + ps.length) none
            (if ps.isEmpty then lne else level + ps.length - 1) acc := by
  intro ps
  induction ps with
  | nil => intro rest level lne acc _; simp
  | cons v ps2 ih =>
    intro rest level lne acc hnb
    have hvb : is_blank v = false := hnb v (List.mem_cons_self v ps2)
    rw [List.cons_append]
    simp only [empty_spans_row]
    rw [if_neg (by simp [hvb])]
    rw [ih rest (level + 1) level acc (fun u hu => hnb u (List.mem_cons_of_mem v hu))]
    by_cases hps : ps2.isEmpty
    · have h0 : ps2 = [] := by
        cases ps2 with
        | nil => rfl
        | cons a t => simp [List.isEmpty_cons] at hps
      subst h0
      simp only [List.isEmpty_nil, if_true, List.length_nil, Nat.add_zero,
        List.length_cons, List.isEmpty_cons, if_false]
      have e1 : level + (0 + 1) = level + 1 := by omega
      have e2 : level + (0 + 1) - 1 = level := by omega
      rw [e1, e2]
      rfl
    · have h1 : ps2.isEmpty = false := by
        cases hb : ps2.isEmpty
        · rfl
        · exact absurd hb hps
      simp only [h1, if_false, List.length_cons, List.isEmpty_cons]
      have e1 : level + 1 + ps2.length = level + (ps2.length + 1) := by omega
      rw [e1]
      rfl

theorem empty_row_scan_blank_open (layout : AxisLayout) (nlevels i : Nat) :
    ∀ (vals : List Scalar) (level s lne : Nat) (acc : List MergeRange),
      (∀ v ∈ vals, is_blank v = true) →
      empty_spans_row layout nlevels i vals level (some s) lne acc
        = acc ++ [⟨layout.y_start + (i : Int) + 1, layout.x_start + (lne : Int) + 1,
                   layout.y_start + (i : Int) + 1,
                   layout.x_start + ((nlevels : Int) - 1) + 1⟩] := by
  intro vals
  induction vals with
  | nil => intro level s lne acc _; rfl
  | cons v rest ih =>
    intro level s lne acc hvb
    have hv : is_blank v = true := hvb v (List.mem_cons_self v rest)
    simp only [empty_spans_row]
    rw [if_pos hv]
    exact ih (level + 1) s lne acc (fun u hu => hvb u (List.mem_cons_of_mem v hu))

theorem empty_row_scan_blank_first (layout : AxisLayout) (nlevels i : Nat)
    (v : Scalar) (vals : List Scalar) (level lne : Nat) (acc : List MergeRange)
    (hv : is_blank v = true) (hvb : ∀ u ∈ vals, is_blank u = true) :
    empty_spans_row layout nlevels i (v :: vals) level none lne acc
      = acc ++ [⟨layout.y_start + (i : Int) + 1, layout.x_start + (lne : Int) + 1,
                 layout.y_start + (i : Int) + 1,
                 layout.x_start + ((nlevels : Int) - 1) + 1⟩] := by
  simp only [empty_spans_row]
  rw [if_pos hv]
  exact empty_row_scan_blank_open layout nlevels i vals (level + 1) level lne acc hvb

theorem empty_spans_row_single (layout : AxisLayout) (nlevels i : Nat)
    (p q : List Scalar) (hp : p ≠ []) (hq : q ≠ [])
    (hqb : ∀ v ∈ q, is_blank v = true)
    (hpn : ∀ v ∈ p.drop 1, is_blank v = false) :
    empty_spans_row layout nlevels i ((p ++ q).drop 1) 1 none 0 []
      = [⟨layout.y_start + (i : Int) + 1,
          layout.x_start + ((p.length - 1 : Nat) : Int) + 1,
          layout.y_start + (i : Int) + 1,
          layout.x_start + ((nlevels : Int) - 1) + 1⟩] := by
  obtain ⟨v, q2, rfl⟩ := List.exists_cons_of_ne_nil hq
  have hdrop : (p ++ v :: q2).drop 1 = p.drop 1 ++ v :: q2 := by
    cases p with
    | nil => exact absurd rfl hp
    | cons a p2 => simp
  rw [hdrop, empty_row_scan_nonblank layout nlevels i (p.drop 1) (v :: q2) 1 0 [] hpn]
  rw [empty_row_scan_blank_first layout nlevels i v q2 _ _ []
    (hqb v (List.mem_cons_self v q2)) (fun u hu => hqb u (List.mem_cons_of_mem v hu))]
  rw [List.nil_append]
  by_cases hps : (p.drop 1).isEmpty
  · have h0 : p.length = 1 := by
      cases p with
      | nil => exact absurd rfl hp
      | cons a p2 =>
        simp only [List.drop_one, List.tail_cons] at hps
        cases p2 with
        | nil => rfl
        | cons b t => simp [List.isEmpty_cons] at hps
    rw [if_pos hps, h0]
  · have h1 : (p.drop 1).isEmpty = false := by
      cases hb : (p.drop 1).isEmpty
      · rfl
      · exact absurd hb hps
    rw [if_neg (show ¬(p.drop 1).isEmpty = true by rw [h1]; simp)]
    have e1 : 1 + (p.drop 1).length - 1 = p.length - 1 := by
      have := List.length_drop 1 p
      omega
    rw [e1]

/-- Decidable test that a merge range lies on the single worksheet row of
row position `i` of the index region. -/
def on_row (layout : AxisLayout) (i : Nat) (r : MergeRange) : Bool :=
  decide (r.start_row = layout.y_start + (i : Int) + 1
    ∧ r.end_row = layout.y_start + (i : Int) + 1)

theorem countP_empty_spans_row_other (layout : AxisLayout) (nlevels : Nat)
    (i2 i : Nat) (hne : i2 ≠ i) (vals : List Scalar) :
    (empty_spans_row layout nlevels i2 vals 1 none 0 []).countP (on_row layout i) = 0 := by
  rw [List.countP_eq_zero]
  intro r hr
  have := empty_spans_row_mem_row layout nlevels i2 vals 1 none 0 []
    (by intro t ht; simp at ht) r hr
  simp only [on_row, decide_eq_true_eq, not_and]
  intro h1
  rw [this.1] at h1
  omega

theorem countP_empty_spans_rows_target (layout : AxisLayout) (nlevels : Nat) :
    ∀ (keys : List Key) (i0 i : Nat) (hi : i < keys.length),
      (empty_spans_rows layout nlevels i0 keys).countP (on_row layout (i0 + i))
        = (empty_spans_row layout nlevels (i0 + i)
            ((keys.get ⟨i, hi⟩).drop 1) 1 none 0 []).countP (on_row layout (i0 + i)) := by
  intro keys
  induction keys with
  | nil => intro i0 i hi; simp at hi
  | cons idx rest ih =>
    intro i0 i hi
    simp only [empty_spans_rows, List.countP_append]
    cases i with
    | zero =>
      have htail : (empty_spans_rows layout nlevels (i0 + 1) rest).countP
          (on_row layout (i0 + 0)) = 0 := by
        rw [List.countP_eq_zero]
        intro t ht
        obtain ⟨j, hj, h1, h2⟩ := empty_spans_rows_mem layout nlevels rest (i0 + 1) t ht
        simp only [on_row, decide_eq_true_eq, not_and]
        intro hcon
        rw [h1] at hcon
        omega
      rw [htail]
      have hhead : (empty_spans_row layout nlevels i0 (idx.drop 1) 1 none 0 []).countP
            (on_row layout (i0 + 0))
          = (empty_spans_row layout nlevels (i0 + 0)
              ((List.get (idx :: rest) ⟨0, hi⟩).drop 1) 1 none 0 []).countP
            (on_row layout (i0 + 0)) := by
        simp only [List.get, Nat.add_zero]
      omega
    | succ i2 =>
      have hhead : (empty_spans_row layout nlevels i0 (idx.drop 1) 1 none 0 []).countP
          (on_row layout (i0 + (i2 + 1))) = 0 := by
        rw [List.countP_eq_zero]
        intro t ht
        have := empty_spans_row_mem_row layout nlevels i0 (idx.drop 1) 1 none 0 []
          (by intro u hu; simp at hu) t ht
        simp only [on_row, decide_eq_true_eq, not_and]
        intro hcon
        rw [this.1] at hcon
        omega
      rw [hhead]
      have := ih (i0 + 1) i2 (by simpa using hi)
      have harr : i0 + 1 + i2 = i0 + (i2 + 1) := by omega
      rw [harr] at this
      simpa using this

theorem empty_spans_rows_mem_of_row (layout : AxisLayout) (nlevels : Nat) :
    ∀ (keys : List Key) (i0 i : Nat) (hi : i < keys.length) (r : MergeRange),
      r ∈ empty_spans_row layout nlevels (i0 + i) ((keys.get ⟨i, hi⟩).drop 1) 1 none 0 [] →
      r ∈ empty_spans_rows layout nlevels i0 keys := by
  intro keys
  induction keys with
  | nil => intro i0 i hi; simp at hi
  | cons idx rest ih =>
    intro i0 i hi r hr
    simp only [empty_spans_rows]
    rw [List.mem_append]
    cases i with
    | zero =>
      left
      simpa using hr
    | succ i2 =>
      right
      have harr : i0 + 1 + i2 = i0 + (i2 + 1) := by omega
      refine ih (i0 + 1) i2 (by simpa using hi) r ?_
      rw [harr]
      simpa using hr

/-- C3 amended: for every row whose hierarchical key is a prefix with no
blank component after level 0, followed by a run of null/empty components
reaching the last level, `get_empty_spans` produces exactly one merge range
on that row: a horizontal merge starting at the index column of the last
non-blank level and ending at the final index column.  (The original claim
fails for rows that additionally contain interior blank runs; see the
counterexample.) -/
theorem blank_trailing_single_run_merge (layout : TableLayout) (cols : PIndex)
    (inames : List (Option String)) (nlevels : Nat) (keys : List Key)
    (i : Nat) (hi : i < keys.length) (p q : List Scalar)
    (hk : keys.get ⟨i, hi⟩ = p ++ q)
    (hp : p ≠ []) (hq : q ≠ [])
    (hqb : ∀ v ∈ q, is_blank v = true)
    (hpn : ∀ v ∈ p.drop 1, is_blank v = false)
    (_hn : nlevels = p.length + q.length) :
    (get_empty_spans ⟨.multi nlevels keys inames, cols⟩ layout).countP
        (on_row layout.index i) = 1
    ∧ (⟨layout.index.y_start + (i : Int) + 1,
        layout.index.x_start + ((p.length - 1 : Nat) : Int) + 1,
        layout.index.y_start + (i : Int) + 1,
        layout.index.x_start + ((nlevels : Int) - 1) + 1⟩ : MergeRange)
        ∈ get_empty_spans ⟨.multi nlevels keys inames, cols⟩ layout := by
  have hunfold : get_empty_spans ⟨.multi nlevels keys inames, cols⟩ layout
      = empty_spans_rows layout.index nlevels 0 keys := rfl
  have hscan : empty_spans_row layout.index nlevels i ((keys.get ⟨i, hi⟩).drop 1) 1 none 0 []
      = [⟨layout.index.y_start + (i : Int) + 1,
          layout.index.x_start + ((p.length - 1 : Nat) : Int) + 1,
          layout.index.y_start + (i : Int) + 1,
          layout.index.x_start + ((nlevels : Int) - 1) + 1⟩] := by
    rw [hk]
    exact empty_spans_row_single layout.index nlevels i p q hp hq hqb hpn
  constructor
  · rw [hunfold]
    have hc := countP_empty_spans_rows_target layout.index nlevels keys 0 i hi
    simp only [Nat.zero_add] at hc
    rw [hc, hscan]
    simp [on_row]
  · rw [hunfold]
    refine empty_spans_rows_mem_of_row layout.index nlevels keys 0 i hi _ ?_
    rw [Nat.zero_add, hscan]
    exact List.mem_singleton.mpr rfl

/-- C3 witness: the single-row MultiIndex `[(1, None, None)]` produces
exactly one blank-trailing merge on its row, spanning from the level-0
index column through the last index column. -/
theorem blank_trailing_single_run_witness :
    (get_empty_spans ⟨.multi 3 [[.int 1, .null, .null]] [none], .flat [.int 0] none⟩
        (TableLayout.init 3 1 1 1 false false 0 0)).countP
      (on_row (TableLayout.init 3 1 1 1 false false 0 0).index 0) = 1
    ∧ (⟨2, 1, 2, 3⟩ : MergeRange)
        ∈ get_empty_spans ⟨.multi 3 [[.int 1, .null, .null]] [none], .flat [.int 0] none⟩
            (TableLayout.init 3 1 1 1 false false 0 0) := by
  have h := blank_trailing_single_run_merge (TableLayout.init 3 1 1 1 false false 0 0)
    (.flat [.int 0] none) [none] 3 [[.int 1, .null, .null]] 0 (by decide)
    [.int 1] [.null, .null] rfl (by decide) (by decide) (by decide) (by decide) (by decide)
  exact ⟨h.1, by decide⟩

/-- C3 counterexample: the row key `(1, None, 2, None)` has a trailing blank
run after its last non-blank level (level 2), yet `get_empty_spans` produces
two merge ranges on that row (one for the interior blank at level 1 and one
for the trailing blank), refuting "exactly one horizontal merge range on
that row". -/
theorem blank_trailing_two_runs_cx :
    (get_empty_spans ⟨.multi 4 [[.int 1, .null, .int 2, .null]] [none], .flat [.int 0] none⟩
        (TableLayout.init 4 1 1 1 false false 0 0)).countP
      (on_row (TableLayout.init 4 1 1 1 false false 0 0).index 0) = 2 := by
  decide

/-- `isinstance(x, tuple)` on a label. -/
def PyVal.isTup : PyVal → Bool
  | .tup _ => true
  | .s _ => false

/-- Python `s.startswith(pre)`: `pre` is a prefix of `s` as a character
sequence. -/
def str_startswith (s pre : String) : Bool :=
  pre.data.isPrefixOf s.data

/-- `PatternMatcher._tuple_contains_match` from `pandasxl/pattern.py`: a part
matches by equality, or by string prefix when both the part and the pattern
are strings. -/
def tuple_contains_match (label_tuple : List Scalar) (pattern : PyVal) : Bool :=
  label_tuple.any (fun part =>
    (PyVal.s part == pattern)
    || (match part, pattern with
        | .str part_str, .s (.str pattern_str) => str_startswith part_str pattern_str
        | _, _ => false))

/-- `PatternMatcher.is_match` from `pandasxl/pattern.py`: tuple patterns
match only an equal tuple label; non-tuple patterns match by equality, or
against the parts of a tuple label. -/
def is_match (label pattern : PyVal) : Bool :=
  if pattern.isTup && label.isTup && (label == pattern) then true
  else if !pattern.isTup then
    if label == pattern then true
    else
      match label with
      | .tup label_tuple => tuple_contains_match label_tuple pattern
      | .s _ => false
  else false

/-- `PatternMatcher.find_match`: value of the first matching pattern. -/
def find_match {T : Type} (label : PyVal) : List (PyVal × T) → Option T
  | [] => none
  | (pattern, value) :: rest =>
    if is_match label pattern then some value else find_match label rest

/-- C2 counterexample: `is_match("EU-total", "EU")` is `False` in the code —
a scalar string label is compared only by equality, never by prefix. -/
theorem is_match_scalar_no_prefix_cx :
    is_match (.s (.str "EU-total")) (.s (.str "EU")) = false := by decide

/-- C2 amended: string-prefix matching applies only to the components of a
tuple label: a tuple label with a string component starting with the string
pattern matches, while a scalar string label matches a non-tuple pattern by
equality only (so `is_match("EU-total", "EU")` is `False`). -/
theorem is_match_prefix_on_components (parts : List Scalar) (pat part_str : String)
    (hmem : Scalar.str part_str ∈ parts) (hpre : str_startswith part_str pat = true) :
    is_match (.tup parts) (.s (.str pat)) = true
    ∧ ∀ a b : String, is_match (.s (.str a)) (.s (.str b)) = (a == b) := by
  constructor
  · simp only [is_match, PyVal.isTup, Bool.false_and, Bool.and_false]
    rw [if_neg (by simp)]
    rw [if_pos (by rfl)]
    rw [if_neg (by simp)]
    simp only [tuple_contains_match, List.any_eq_true]
    refine ⟨Scalar.str part_str, hmem, ?_⟩
    simp [hpre]
  · intro a b
    by_cases hab : a = b
    · subst hab
      simp [is_match]
    · simp only [is_match, PyVal.isTup, Bool.false_and, Bool.and_false]
      rw [if_neg (by simp)]
      rw [if_pos (by rfl)]
      rw [if_neg (by simp [hab])]
      simp [hab]

/-- C2 witness: the tuple label `("EU-total", "NL")` matches the pattern
`"EU"` by component prefix. -/
theorem is_match_prefix_witness :
    is_match (.tup [.str "EU-total", .str "NL"]) (.s (.str "EU")) = true := by
  exact (is_match_prefix_on_components [.str "EU-total", .str "NL"] "EU" "EU-total"
    (by decide) (by decide)).1

/-- A Python exception as seen by `MergeManager.apply_merges`: a `ValueError`
(caught) or any other exception (propagated). -/
inductive PyError where
  | valueError
  | other
deriving DecidableEq, Repr

/-- `MergeManager.apply_merges` from `pandasxl/merge.py`: apply each range
through the sink's `merge_cells`; on success record it in `applied_merges`;
a `ValueError` ("already merged") is skipped; any other exception
propagates.  The sink is an external collaborator, modelled as a state
transformer that can fail. -/
def apply_merges {σ : Type} (merge_cells : σ → MergeRange → Except PyError σ) :
    σ → List MergeRange → List MergeRange → Except PyError (σ × List MergeRange)
  | ws, applied, [] => .ok (ws, applied)
  | ws, applied, r :: rest =>
    match merge_cells ws r with
    | .ok ws2 => apply_merges merge_cells ws2 (applied ++ [r]) rest
    | .error .valueError => apply_merges merge_cells ws applied rest
    | .error .other => .error .other

theorem apply_merges_ok {σ : Type} (merge_cells : σ → MergeRange → Except PyError σ)
    (hsink : ∀ (s : σ) (r2 : MergeRange), merge_cells s r2 ≠ .error .other) :
    ∀ (ranges : List MergeRange) (ws : σ) (applied : List MergeRange),
      ∃ out, apply_merges merge_cells ws applied ranges = .ok out := by
  intro ranges
  induction ranges with
  | nil => intro ws applied; exact ⟨(ws, applied), rfl⟩
  | cons r rest ih =>
    intro ws applied
    simp only [apply_merges]
    cases hmc : merge_cells ws r with
    | ok ws2 => exact ih ws2 (applied ++ [r])
    | error e =>
      cases e with
      | valueError => exact ih ws applied
      | other => exact absurd hmc (hsink ws r)

/-- C9: a sink-rejected merge (`ValueError`, e.g. "already merged") is
skipped without being recorded — applying `r :: rest` equals applying just
`rest` — and, as long as the sink only reports merge failures, the whole
`apply_merges` run completes without propagating any error. -/
theorem apply_merges_skip_and_continue {σ : Type}
    (merge_cells : σ → MergeRange → Except PyError σ)
    (ws : σ) (applied : List MergeRange) (r : MergeRange) (rest : List MergeRange)
    (hfail : merge_cells ws r = .error .valueError)
    (hsink : ∀ (s : σ) (r2 : MergeRange), merge_cells s r2 ≠ .error .other) :
    apply_merges merge_cells ws applied (r :: rest) = apply_merges merge_cells ws applied rest
    ∧ ∃ ws2 applied2,
      apply_merges merge_cells ws applied (r :: rest) = .ok (ws2, applied2) := by
  have hskip : apply_merges merge_cells ws applied (r :: rest)
      = apply_merges merge_cells ws applied rest := by
    simp only [apply_merges, hfail]
  refine ⟨hskip, ?_⟩
  rw [hskip]
  obtain ⟨⟨ws2, applied2⟩, hout⟩ := apply_merges_ok merge_cells hsink rest ws applied
  exact ⟨ws2, applied2, hout⟩

/-- A concrete grid-sink model used to exercise `apply_merges`: the state is
the list of already-merged ranges and a repeated merge raises `ValueError`. -/
def sink_model (s : List MergeRange) (r : MergeRange) : Except PyError (List MergeRange) :=
  if r ∈ s then .error .valueError else .ok (r :: s)

/-- C9 witness: with the already-merged range `(1,1,2,2)`, applying
`[(1,1,2,2), (3,1,3,2)]` skips the first range and completes successfully. -/
theorem apply_merges_skip_witness :
    apply_merges sink_model [⟨1, 1, 2, 2⟩] [] [⟨1, 1, 2, 2⟩, ⟨3, 1, 3, 2⟩]
      = apply_merges sink_model [⟨1, 1, 2, 2⟩] [] [⟨3, 1, 3, 2⟩]
    ∧ ∃ ws2 applied2,
      apply_merges sink_model [⟨1, 1, 2, 2⟩] [] [⟨1, 1, 2, 2⟩, ⟨3, 1, 3, 2⟩]
        = .ok (ws2, applied2) := by
  exact apply_merges_skip_and_continue sink_model [⟨1, 1, 2, 2⟩] [] ⟨1, 1, 2, 2⟩ [⟨3, 1, 3, 2⟩]
    (by simp [sink_model])
    (by intro s r2; simp only [sink_model]; split <;> simp)

/-- Python `a or b` on `str | None` values: `None` and the empty string are
falsy, anything else is returned as-is. -/
def py_or (a b : Option String) : Option String :=
  match a with
  | some s => if s == "" then b else some s
  | none => b

/-- `ExcelTableWriter._handle_na_value`: NA values become the
`NA_REPRESENTATION` (the empty string). -/
def handle_na_value (v : Scalar) : Scalar :=
  if v = .null then .str "" else v

/-- `isinstance(value, (int, float, np.number))` on a (non-NA) scalar. -/
def Scalar.is_number : Scalar → Bool
  | .int _ => true
  | _ => false

/-- `_process_number_formats` (per axis): position ``i`` gets the value of
the first pattern matching the label at ``i``, or `None`. -/
def process_axis_number_formats (labels : List PyVal)
    (patterns : List (PyVal × String)) : List (Option String) :=
  labels.map (fun label => find_match label patterns)

/-- `write_data` lines 339-342: the number format for data cell `(i, j)` is
`row_format or col_format or default_number_format`. -/
def write_data_number_format (row_formats column_formats : List (Option String))
    (default_number_format : Option String) (i j : Nat) : Option String :=
  let col_format := column_formats.getD j none
  let row_format := row_formats.getD i none
  py_or (py_or row_format col_format) default_number_format

/-- The number format `_write_cell` actually applies to a data cell: the
resolved format, guarded by `if number_format and isinstance(value, ...)`
after NA handling. -/
def applied_number_format (value : Scalar)
    (row_formats column_formats : List (Option String))
    (default_number_format : Option String) (i j : Nat) : Option String :=
  let v := handle_na_value value
  match write_data_number_format row_formats column_formats default_number_format i j with
  | some s => if (s != "") && v.is_number then some s else none
  | none => none

theorem find_match_mem {T : Type} (label : PyVal) :
    ∀ (patterns : List (PyVal × T)) (v : T),
      find_match label patterns = some v → ∃ p ∈ patterns, p.2 = v := by
  intro patterns
  induction patterns with
  | nil => intro v h; simp [find_match] at h
  | cons pv rest ih =>
    intro v h
    obtain ⟨pattern, value⟩ := pv
    simp only [find_match] at h
    by_cases hm : is_match label pattern = true
    · rw [if_pos hm] at h
      exact ⟨(pattern, value), List.mem_cons_self _ _, by simpa using h⟩
    · rw [if_neg hm] at h
      obtain ⟨p, hp, hv⟩ := ih v h
      exact ⟨p, List.mem_cons_of_mem _ hp, hv⟩

/-- The spec's resolution order for a cell's number format: the row match
if any, else the column match if any, else the default. -/
def spec_format_priority (a b c : Option String) : Option String :=
  match a with
  | some s => some s
  | none =>
    match b with
    | some s => some s
    | none => c

theorem py_or_chain (a b c : Option String)
    (ha : a ≠ some "") (hb : b ≠ some "") :
    py_or (py_or a b) c = spec_format_priority a b c := by
  cases a with
  | none =>
    cases b with
    | none => rfl
    | some sb =>
      have : (sb == "") = false := by
        simp only [beq_eq_false_iff_ne, ne_eq]
        intro h
        exact hb (by rw [h])
      simp [py_or, spec_format_priority, this]
  | some sa =>
    have : (sa == "") = false := by
      simp only [beq_eq_false_iff_ne, ne_eq]
      intro h
      exact ha (by rw [h])
    simp [py_or, spec_format_priority, this]

theorem getD_map_get {β : Type} (f : PyVal → β) (labels : List PyVal) (d : β)
    (i : Nat) (hi : i < labels.length) :
    (labels.map f).getD i d = f (labels.get ⟨i, hi⟩) := by
  rw [List.getD_eq_getElem?_getD]
  rw [List.getElem?_map]
  rw [List.getElem?_eq_getElem hi]
  rfl

/-- C6: for a numeric data cell, the number format applied by the grid
writer is resolved with priority: the row-pattern match for the cell's row
if one exists, otherwise the column-pattern match for its column if one
exists, otherwise the engine's default number format (`none` meaning no
format is applied).  Format strings are assumed non-empty (the empty string
is not a number format). -/
theorem number_format_priority
    (index_labels col_labels : List PyVal)
    (row_patterns column_patterns : List (PyVal × String))
    (default_number_format : Option String) (k : Int) (i j : Nat)
    (hi : i < index_labels.length) (hj : j < col_labels.length)
    (hrow : ∀ pv ∈ row_patterns, pv.2 ≠ "")
    (hcol : ∀ pv ∈ column_patterns, pv.2 ≠ "")
    (hdef : default_number_format ≠ some "") :
    applied_number_format (.int k)
        (process_axis_number_formats index_labels row_patterns)
        (process_axis_number_formats col_labels column_patterns)
        default_number_format i j
      = spec_format_priority
          (find_match (index_labels.get ⟨i, hi⟩) row_patterns)
          (find_match (col_labels.get ⟨j, hj⟩) column_patterns)
          default_number_format := by
  have hr : (process_axis_number_formats index_labels row_patterns).getD i none
      = find_match (index_labels.get ⟨i, hi⟩) row_patterns :=
    getD_map_get _ index_labels none i hi
  have hc : (process_axis_number_formats col_labels column_patterns).getD j none
      = find_match (col_labels.get ⟨j, hj⟩) column_patterns :=
    getD_map_get _ col_labels none j hj
  have hrne : find_match (index_labels.get ⟨i, hi⟩) row_patterns ≠ some "" := by
    intro h
    obtain ⟨p, hp, hpv⟩ := find_match_mem _ row_patterns "" h
    exact hrow p hp hpv
  have hcne : find_match (col_labels.get ⟨j, hj⟩) column_patterns ≠ some "" := by
    intro h
    obtain ⟨p, hp, hpv⟩ := find_match_mem _ column_patterns "" h
    exact hcol p hp hpv
  simp only [applied_number_format, write_data_number_format]
  rw [hr, hc, py_or_chain _ _ _ hrne hcne]
  cases hfm : find_match (index_labels.get ⟨i, hi⟩) row_patterns with
  | some f =>
    have hf : (f == "") = false := by
      simp only [beq_eq_false_iff_ne, ne_eq]
      intro h
      exact hrne (by rw [hfm, h])
    simp [spec_format_priority, handle_na_value, Scalar.is_number, bne, hf]
  | none =>
    cases hfc : find_match (col_labels.get ⟨j, hj⟩) column_patterns with
    | some f =>
      have hf : (f == "") = false := by
        simp only [beq_eq_false_iff_ne, ne_eq]
        intro h
        exact hcne (by rw [hfc, h])
      simp [spec_format_priority, handle_na_value, Scalar.is_number, bne, hf]
    | none =>
      cases default_number_format with
      | none => simp [spec_format_priority]
      | some d =>
        have hd : (d == "") = false := by
          simp only [beq_eq_false_iff_ne, ne_eq]
          intro h
          exact hdef (by rw [h])
        simp [spec_format_priority, handle_na_value, Scalar.is_number, bne, hd]

/-- C6 witness: with a row pattern matching label `1` mapping to `"0.0"`,
an empty column pattern list and no default, the applied format of cell
`(0, 0)` holding the number `5` is `"0.0"`. -/
theorem number_format_priority_witness :
    applied_number_format (.int 5)
        (process_axis_number_formats [PyVal.s (.int 1)] [(PyVal.s (.int 1), "0.0")])
        (process_axis_number_formats [PyVal.s (.int 2)] [])
        none 0 0 = some "0.0" := by
  have h := number_format_priority [PyVal.s (.int 1)] [PyVal.s (.int 2)]
    [(PyVal.s (.int 1), "0.0")] [] none 5 0 0 (by decide) (by decide)
    (by intro pv hpv; simp only [List.mem_singleton] at hpv; subst hpv; decide)
    (by intro pv hpv; simp at hpv)
    (by simp)
  rw [h]
  decide
